import Mathlib

/-!
Verification of `latex_math_to_image_converter` (`main.py`, file version 2.2.0).

The development is a shallow embedding of the program's text-processing
operations.  Documents are lists of characters; Python string slices,
the two regular expressions used by `extract_equations_with_spans`, the
`re.search` pattern used by `add_graphicx_package`, the descending
slice-assignment splice of the replace sub-mode, the manual-mode input
validation, and the figure lifecycle of `latex_to_image` are all modelled
as executable Lean functions.

The two regular expressions of `extract_equations_with_spans`,

  inline:  `(?<!\\)\$((?:(?!\$).)*?)(?<!\\)\$`
  display: `(?<!\\)\$\$((?:(?!\$\$).)*?)(?<!\\)\$\$`

are embedded by direct operational translation of the backtracking search
that `re.finditer` performs on them: a match attempt at position `i`
requires an opening delimiter whose preceding character is not a
backslash, then repeatedly either closes at the first eligible delimiter
(the content class forbids any further `$`, so the non-greedy scan never
passes a dollar sign) or fails; `finditer` resumes after a match, or at
`i + 1` after a failed attempt.  The scanning functions take an explicit
fuel argument (structural recursion) so that they evaluate by `decide`;
every top-level use supplies fuel `s.length + 1`, which is never
exhausted before the scan runs off the end of the document.
-/

namespace LatexConv

/-- A document text, as its sequence of characters. -/
abbrev Doc := List Char

/-- Python slice `s[a:b]` (for `0 ≤ a`, with Python's clamping behavior). -/
def sub (s : Doc) (a b : Nat) : Doc := (s.drop a).take (b - a)

/-- The regex lookbehind `(?<!\\)` at character position `i`:
true when `i` is not immediately preceded by a backslash. -/
def notEscaped (s : Doc) : Nat → Bool
  | 0 => true
  | j + 1 => decide (s[j]? ≠ some '\\')

/-- Non-greedy scan for the closing `(?<!\\)\$` of an inline-math match
whose content class `(?:(?!\$).)` forbids `$`: from position `pos`,
return `some (q+1)` where `q` is the first `$` at or after `pos`,
provided that `$` is not escaped; otherwise the whole attempt fails. -/
def inlineClose (s : Doc) : Nat → Nat → Option Nat
  | 0, _ => none
  | fuel + 1, pos =>
    match s[pos]? with
    | none => none
    | some c =>
      if c = '$' then
        if notEscaped s pos then some (pos + 1) else none
      else inlineClose s fuel (pos + 1)

/-- `re.finditer` for the inline pattern `(?<!\\)\$((?:(?!\$).)*?)(?<!\\)\$`:
spans `(start, stop)` of successive non-overlapping matches from
position `i`.  After a match ending at `e` the search resumes at `e`;
after a failed attempt it resumes at the next position. -/
def inlineIter (s : Doc) : Nat → Nat → List (Nat × Nat)
  | 0, _ => []
  | fuel + 1, i =>
    match s[i]? with
    | none => []
    | some c =>
      if c = '$' ∧ notEscaped s i then
        match inlineClose s s.length (i + 1) with
        | some e => (i, e) :: inlineIter s fuel e
        | none => inlineIter s fuel (i + 1)
      else inlineIter s fuel (i + 1)

/-- All inline-math match spans of the document. -/
def inlinePairs (s : Doc) : List (Nat × Nat) := inlineIter s (s.length + 1) 0

/-- Non-greedy scan for the closing `(?<!\\)\$\$` of a display-math match
whose content class `(?:(?!\$\$).)` forbids `$$`: from position `pos`,
return `some (q+2)` where `q` starts the first `$$` at or after `pos`,
provided that `$$` is not escaped; otherwise the whole attempt fails. -/
def displayClose (s : Doc) : Nat → Nat → Option Nat
  | 0, _ => none
  | fuel + 1, pos =>
    match s[pos]? with
    | none => none
    | some c =>
      if c = '$' ∧ s[pos + 1]? = some '$' then
        if notEscaped s pos then some (pos + 2) else none
      else displayClose s fuel (pos + 1)

/-- `re.finditer` for the display pattern
`(?<!\\)\$\$((?:(?!\$\$).)*?)(?<!\\)\$\$`. -/
def displayIter (s : Doc) : Nat → Nat → List (Nat × Nat)
  | 0, _ => []
  | fuel + 1, i =>
    match s[i]? with
    | none => []
    | some c =>
      if c = '$' ∧ s[i + 1]? = some '$' ∧ notEscaped s i then
        match displayClose s s.length (i + 2) with
        | some e => (i, e) :: displayIter s fuel e
        | none => displayIter s fuel (i + 1)
      else displayIter s fuel (i + 1)

/-- All display-math match spans of the document. -/
def displayPairs (s : Doc) : List (Nat × Nat) := displayIter s (s.length + 1) 0

/-- An Equation Span: one entry
`(start_idx, end_idx, original_equation_str, is_display_math)` of the
list built by `extract_equations_with_spans`. -/
structure Span where
  start : Nat
  stop : Nat
  raw : Doc
  isDisplay : Bool
deriving DecidableEq, Repr

/-- The display-span entry appended for a display match
(`match.start(0)`, `match.end(0)`, `match.group(0)`, `True`). -/
def mkDisplaySpan (content : Doc) (m : Nat × Nat) : Span :=
  ⟨m.1, m.2, sub content m.1 m.2, true⟩

/-- The inline-span entry appended for a surviving inline match. -/
def mkInlineSpan (content : Doc) (m : Nat × Nat) : Span :=
  ⟨m.1, m.2, sub content m.1 m.2, false⟩

/-- One step of the inline loop of `extract_equations_with_spans`:
the candidate `m` is appended to `equations_data` unless its range falls
inside an already-recorded entry
(`match.start(0) >= disp_start and match.end(0) <= disp_end`). -/
def addInline (content : Doc) (acc : List Span) (m : Nat × Nat) : List Span :=
  if acc.any fun d => decide (d.start ≤ m.1) && decide (m.2 ≤ d.stop) then acc
  else acc ++ [mkInlineSpan content m]

/-- Ascending order on spans by `start_idx`
(the `equations_data.sort(key=lambda x: x[0])` order). -/
def leStart (a b : Span) : Prop := a.start ≤ b.start

instance : DecidableRel leStart := fun a b => Nat.decLe a.start b.start

/-- `extract_equations_with_spans`, applied to the file content: collect
all display matches, then fold the inline matches through the
containment check, then sort by start index.  (Python's `list.sort` is a
stable ascending sort by the key, as is `List.insertionSort leStart`.) -/
def extract_equations_with_spans (content : Doc) : List Span :=
  let disp := (displayPairs content).map (mkDisplaySpan content)
  let all := (inlinePairs content).foldl (addInline content) disp
  List.insertionSort leStart all

/-- Python's substring test `pat in s`. -/
def hasInfix (s pat : Doc) : Bool :=
  if pat.isPrefixOf s then true
  else
    match s with
    | [] => false
    | _ :: t => hasInfix t pat

/-- The literal `r'\usepackage{graphicx}'`. -/
def pkgGraphicx : Doc := "\\usepackage{graphicx}".data

/-- The literal `\documentclass{` opening the search pattern of
`add_graphicx_package` (15 characters). -/
def docclassPat : Doc := "\\documentclass\x7b".data

/-- The literal `\begin{document}` (16 characters). -/
def beginDocPat : Doc := "\\begin{document}".data

/-- First position `≥ start` at which `pat` occurs in `s` (as used by
the leftmost-match search of `re.search`). -/
def findStr (s pat : Doc) : Nat → Nat → Option Nat
  | 0, _ => none
  | fuel + 1, i =>
    if pat.isPrefixOf (s.drop i) then some i
    else if s.length ≤ i then none
    else findStr s pat fuel (i + 1)

/-- First `}` at or after `pos` (the non-greedy `.*?\}` step of the
`add_graphicx_package` pattern). -/
def findCloseBrace (s : Doc) : Nat → Nat → Option Nat
  | 0, _ => none
  | fuel + 1, pos =>
    match s[pos]? with
    | none => none
    | some c =>
      if c = '\x7d' then some pos else findCloseBrace s fuel (pos + 1)

/-- Backtracking completion of
`\documentclass\{.*?\}.*?\\begin\{document\}` after the literal
`\documentclass{` has matched: choose the first `}` at or after `p`
after which `\begin{document}` still occurs, returning that brace
position and the start of `\begin{document}`. -/
def completeClassPattern (s : Doc) : Nat → Nat → Option (Nat × Nat)
  | 0, _ => none
  | fuel + 1, p =>
    match findCloseBrace s (s.length + 1) p with
    | none => none
    | some j =>
      match findStr s beginDocPat (s.length + 1) (j + 1) with
      | some k => some (j, k)
      | none => completeClassPattern s fuel (j + 1)

/-- `re.search(r'(\\documentclass\{.*?\}.*?)(\\begin\{document\})', content, re.DOTALL)`:
the leftmost position `i` at which the whole pattern matches, with the
chosen brace position `j` and the start `k` of group 2. -/
def searchClassBegin (s : Doc) : Nat → Nat → Option (Nat × Nat × Nat)
  | 0, _ => none
  | fuel + 1, i =>
    if docclassPat.isPrefixOf (s.drop i) then
      match completeClassPattern s (s.length + 1) (i + 15) with
      | some (j, k) => some (i, j, k)
      | none => searchClassBegin s fuel (i + 1)
    else if s.length ≤ i then none
    else searchClassBegin s fuel (i + 1)

/-- `add_graphicx_package`: if `\usepackage{graphicx}` does not occur in
the content, insert it; on a pattern match the function returns
`match.group(1) + '\n\usepackage{graphicx}' + match.group(2) + content[match.end(2):]`
(note that this drops `content[:match.start(1)]`); otherwise it prepends
`\usepackage{graphicx}\n`. -/
def add_graphicx_package (content : Doc) : Doc :=
  if hasInfix content pkgGraphicx then content
  else
    match searchClassBegin content (content.length + 1) 0 with
    | some (i, _, k) =>
        sub content i k ++ '\n' :: pkgGraphicx
          ++ sub content k (k + 16) ++ content.drop (k + 16)
    | none => pkgGraphicx ++ '\n' :: content

/-- The display spans recorded by the first loop of
`extract_equations_with_spans`. -/
def dispSpans (content : Doc) : List Span :=
  (displayPairs content).map (mkDisplaySpan content)

/-- The inline candidates surviving the containment check against the
display spans, as spans. -/
def keptInlineSpans (content : Doc) : List Span :=
  ((inlinePairs content).filter fun p =>
      !((dispSpans content).any fun d =>
          decide (d.start ≤ p.1) && decide (p.2 ≤ d.stop))).map
    (mkInlineSpan content)

/-- Two half-open character ranges `[s1, e1)` and `[s2, e2)` share no
character position (see `rangesDisjoint_iff`). -/
def rangesDisjoint (s1 e1 s2 e2 : Nat) : Prop :=
  e1 ≤ s2 ∨ e2 ≤ s1 ∨ e1 ≤ s1 ∨ e2 ≤ s2

instance (s1 e1 s2 e2 : Nat) : Decidable (rangesDisjoint s1 e1 s2 e2) := by
  unfold rangesDisjoint; infer_instance

/-- No character position belongs to both spans. -/
def spanDisjoint (a b : Span) : Prop :=
  rangesDisjoint a.start a.stop b.start b.stop

instance (a b : Span) : Decidable (spanDisjoint a b) := by
  unfold spanDisjoint; infer_instance

/-- Two spans of the same kind (both display or both inline) do not
overlap; nothing is required of a display/inline pair. -/
def kindSep (a b : Span) : Prop :=
  a.isDisplay = b.isDisplay → a.stop ≤ b.start ∨ b.stop ≤ a.start

instance (a b : Span) : Decidable (kindSep a b) := by
  unfold kindSep; infer_instance

instance : IsTotal Span leStart := ⟨fun a b => Nat.le_total a.start b.start⟩

instance : IsTrans Span leStart := ⟨fun _ _ _ => Nat.le_trans⟩

/-! ### The replace sub-mode splice (lines 267-277) -/

/-- A replacement triple `(start_idx, end_idx, replacement_text)`. -/
abbrev Rep := Nat × Nat × Doc

/-- Python slice assignment `final_chars[a:b] = list(r)`. -/
def setSlice (l : Doc) (a b : Nat) (r : Doc) : Doc :=
  l.take a ++ r ++ l.drop b

/-- Descending order on replacement triples by start offset
(`sort(key=lambda x: x[0], reverse=True)`). -/
def geStartR (a b : Rep) : Prop := b.1 ≤ a.1

instance : DecidableRel geStartR := fun a b => Nat.decLe b.1 a.1

/-- Ascending order on replacement triples by start offset. -/
def leStartR (a b : Rep) : Prop := a.1 ≤ b.1

instance : DecidableRel leStartR := fun a b => Nat.decLe a.1 b.1

/-- The replace sub-mode splice: sort the replacement triples in
descending order of start offset, then apply the slice assignments to
the mutable character list in that order. -/
def spliceDesc (content : Doc) (reps : List Rep) : Doc :=
  (List.insertionSort geStartR reps).foldl
    (fun acc t => setSlice acc t.1 t.2.1 t.2.2) content

/-- Modelled from the spec: build the output in a single left-to-right
pass over the ascending-sorted triples, copying each untouched segment
and substituting each replaced segment. -/
def buildAsc (content : Doc) : Nat → List Rep → Doc
  | pos, [] => content.drop pos
  | pos, (s, e, r) :: rest => sub content pos s ++ r ++ buildAsc content e rest

/-- Modelled from the spec: the left-to-right functional splice over the
ascending-sorted replacement list. -/
def spliceAsc (content : Doc) (reps : List Rep) : Doc :=
  buildAsc content 0 (List.insertionSort leStartR reps)

instance : IsTotal Rep geStartR := ⟨fun a b => Nat.le_total b.1 a.1⟩

instance : IsTrans Rep geStartR := ⟨fun _ _ _ hab hbc => Nat.le_trans hbc hab⟩

instance : IsTotal Rep leStartR := ⟨fun a b => Nat.le_total a.1 b.1⟩

instance : IsTrans Rep leStartR := ⟨fun _ _ _ => Nat.le_trans⟩

/-- Strict ascending order on replacement triples by start offset. -/
def ltStartR (a b : Rep) : Prop := a.1 < b.1

instance : IsAntisymm Rep ltStartR :=
  ⟨fun a _ h1 h2 => absurd (Nat.lt_trans h1 h2) (Nat.lt_irrefl a.1)⟩

/-- The replacement list is chained: starting from write position `p`,
each triple starts no earlier than the previous one ended, and all
offsets stay within a document of length `n`. -/
def AscOk (n : Nat) : Nat → List Rep → Prop
  | p, [] => p ≤ n
  | p, (s, e, _) :: rest => p ≤ s ∧ s ≤ e ∧ AscOk n e rest

/-! ### File-mode error flow (lines 117-121 and 211-215) -/

/-- Console lines relevant to distinguishing the file-mode outcomes. -/
inductive ConsoleMsg where
  | fileNotFound
  | noEquationsFound
deriving DecidableEq, Repr

/-- `extract_equations_with_spans` opens the file inside `try`/`except`:
a missing path raises `FileNotFoundError`, which is caught; an error
line is printed and the accumulated `equations_data` — still `[]` — is
returned normally.  The argument is `none` for a nonexistent path and
`some content` for a readable file with that content; the result is the
returned list plus the messages the function itself printed. -/
def extract_from_file : Option Doc → List Span × List ConsoleMsg
  | none => ([], [ConsoleMsg.fileNotFound])
  | some content => (extract_equations_with_spans content, [])

/-- The caller in file mode (lines 211-215): after the call it runs
`if not equations_data:` and prints the single shared
"No equations found in '…' or file could not be read" line. -/
def fileModeReport (file : Option Doc) : List Span × List ConsoleMsg :=
  let r := extract_from_file file
  if r.1.isEmpty then (r.1, r.2 ++ [ConsoleMsg.noEquationsFound]) else r

/-! ### Renderer resource lifecycle (lines 25-67) -/

/-- The drawing-surface state of `latex_to_image`, modelled as the number
of open figures.  `plt.figure` opens one; when the body succeeds,
`plt.savefig` writes the PNG and `plt.close(fig)` releases the figure;
when a step raises (`bodyRaises = true`, e.g. the typesetting backend
rejects the equation in `savefig`), the `except` clause prints and
re-raises without reaching `plt.close(fig)`.  Result: the open-figure
count on exit and whether the call returned normally. -/
def latex_to_image (bodyRaises : Bool) (openFigures : Nat) : Nat × Bool :=
  let opened := openFigures + 1
  if bodyRaises then (opened, false) else (opened - 1, true)

/-! ### Manual-mode input validation (lines 167-192) -/

/-- Manual-mode validation:
`latex_input.startswith("r'$") or latex_input.startswith("r'$$")`. -/
def manualValidate (input : Doc) : Bool :=
  "r\x27$".data.isPrefixOf input || "r\x27$$".data.isPrefixOf input

/-- Modelled from Python's raw-string literal syntax, which is what
`eval(latex_input)` applies to a well-formed entered literal: after
`r` and the opening quote, a backslash always keeps itself and the
following character, and an unescaped quote must be the final character
of the input.  Returns the literal's content, or `none` when the
literal is malformed and `eval` raises `SyntaxError`. -/
def rawBody : Doc → Option Doc
  | [] => none
  | '\x27' :: rest => if rest.isEmpty then some [] else none
  | '\\' :: c :: rest => (rawBody rest).map fun b => '\\' :: c :: b
  | ['\\'] => none
  | c :: rest => (rawBody rest).map fun b => c :: b

/-- Interpret the entered text as a Python raw-string literal `r'...'`. -/
def parseRawLiteral : Doc → Option Doc
  | 'r' :: '\x27' :: rest => rawBody rest
  | _ => none

/-- Outcome of one manual-mode pass on the entered equation line. -/
inductive ManualOutcome where
  | rejectedFormat
  | syntaxError
  | rendered (equation : Doc)
deriving DecidableEq, Repr

/-- The manual-mode flow: reject unless the prefix validation passes;
then interpret the literal (`eval`); a malformed literal is reported as
a format error with no image; otherwise the recovered equation text is
sent to the renderer. -/
def manualMode (input : Doc) : ManualOutcome :=
  if manualValidate input then
    match parseRawLiteral input with
    | some eq => ManualOutcome.rendered eq
    | none => ManualOutcome.syntaxError
  else ManualOutcome.rejectedFormat

/-! ### Basic properties of the match scanners -/

theorem inlineClose_lt (s : Doc) :
    ∀ fuel pos e, inlineClose s fuel pos = some e → pos < e := by
  intro fuel
  induction fuel with
  | zero => intro pos e h; simp [inlineClose] at h
  | succ f ih =>
    intro pos e h
    simp only [inlineClose] at h
    split at h
    · exact absurd h (by simp)
    · split at h
      · split at h
        · injection h with h; omega
        · exact absurd h (by simp)
      · have := ih _ _ h; omega

theorem displayClose_lt (s : Doc) :
    ∀ fuel pos e, displayClose s fuel pos = some e → pos + 1 < e := by
  intro fuel
  induction fuel with
  | zero => intro pos e h; simp [displayClose] at h
  | succ f ih =>
    intro pos e h
    simp only [displayClose] at h
    split at h
    · exact absurd h (by simp)
    · split at h
      · split at h
        · injection h with h; omega
        · exact absurd h (by simp)
      · have := ih _ _ h; omega

theorem inlineIter_mem (s : Doc) :
    ∀ fuel i, ∀ p ∈ inlineIter s fuel i, i ≤ p.1 ∧ p.1 < p.2 := by
  intro fuel
  induction fuel with
  | zero => intro i p hp; simp [inlineIter] at hp
  | succ f ih =>
    intro i p hp
    simp only [inlineIter] at hp
    split at hp
    · simp at hp
    · split at hp
      · split at hp
        next e hcl =>
          have he : i + 1 < e := inlineClose_lt s _ _ _ hcl
          rcases List.mem_cons.mp hp with rfl | hp
          · exact ⟨Nat.le_refl _, by omega⟩
          · have := ih e p hp
            exact ⟨by omega, this.2⟩
        next hcl =>
          have := ih (i + 1) p hp
          exact ⟨by omega, this.2⟩
      · have := ih (i + 1) p hp
        exact ⟨by omega, this.2⟩

theorem inlineIter_chain (s : Doc) :
    ∀ fuel i, (inlineIter s fuel i).Pairwise fun p q => p.2 ≤ q.1 := by
  intro fuel
  induction fuel with
  | zero => intro i; simp [inlineIter]
  | succ f ih =>
    intro i
    simp only [inlineIter]
    split
    · exact List.Pairwise.nil
    · split
      · split
        next e hcl =>
          refine List.Pairwise.cons ?_ (ih e)
          intro q hq
          exact (inlineIter_mem s f e q hq).1
        next hcl => exact ih (i + 1)
      · exact ih (i + 1)

theorem displayIter_mem (s : Doc) :
    ∀ fuel i, ∀ p ∈ displayIter s fuel i, i ≤ p.1 ∧ p.1 < p.2 := by
  intro fuel
  induction fuel with
  | zero => intro i p hp; simp [displayIter] at hp
  | succ f ih =>
    intro i p hp
    simp only [displayIter] at hp
    split at hp
    · simp at hp
    · split at hp
      · split at hp
        next e hcl =>
          have he : i + 2 + 1 < e := displayClose_lt s _ _ _ hcl
          rcases List.mem_cons.mp hp with rfl | hp
          · exact ⟨Nat.le_refl _, by omega⟩
          · have := ih e p hp
            exact ⟨by omega, this.2⟩
        next hcl =>
          have := ih (i + 1) p hp
          exact ⟨by omega, this.2⟩
      · have := ih (i + 1) p hp
        exact ⟨by omega, this.2⟩

theorem displayIter_chain (s : Doc) :
    ∀ fuel i, (displayIter s fuel i).Pairwise fun p q => p.2 ≤ q.1 := by
  intro fuel
  induction fuel with
  | zero => intro i; simp [displayIter]
  | succ f ih =>
    intro i
    simp only [displayIter]
    split
    · exact List.Pairwise.nil
    · split
      · split
        next e hcl =>
          refine List.Pairwise.cons ?_ (ih e)
          intro q hq
          exact (displayIter_mem s f e q hq).1
        next hcl => exact ih (i + 1)
      · exact ih (i + 1)

theorem inlinePairs_mem (s : Doc) : ∀ p ∈ inlinePairs s, p.1 < p.2 :=
  fun p hp => (inlineIter_mem s _ 0 p hp).2

theorem inlinePairs_chain (s : Doc) :
    (inlinePairs s).Pairwise fun p q => p.2 ≤ q.1 :=
  inlineIter_chain s _ 0

theorem displayPairs_mem (s : Doc) : ∀ p ∈ displayPairs s, p.1 < p.2 :=
  fun p hp => (displayIter_mem s _ 0 p hp).2

theorem displayPairs_chain (s : Doc) :
    (displayPairs s).Pairwise fun p q => p.2 ≤ q.1 :=
  displayIter_chain s _ 0

/-! ### The inline fold of `extract_equations_with_spans` -/

theorem rangesDisjoint_iff (s1 e1 s2 e2 : Nat) :
    rangesDisjoint s1 e1 s2 e2
      ↔ ∀ x, ¬(s1 ≤ x ∧ x < e1 ∧ s2 ≤ x ∧ x < e2) := by
  unfold rangesDisjoint
  constructor
  · intro h x; omega
  · intro h
    by_contra hc
    rcases Nat.le_total s1 s2 with hle | hle
    · exact h s2 (by omega)
    · exact h s1 (by omega)

theorem foldl_addInline_spec (content : Doc) :
    ∀ (pairs : List (Nat × Nat)) (disp extra : List Span),
      pairs.Pairwise (fun p q => p.2 ≤ q.1) →
      (∀ p ∈ pairs, p.1 < p.2) →
      (∀ x ∈ extra, ∀ p ∈ pairs, x.stop ≤ p.1) →
      pairs.foldl (addInline content) (disp ++ extra)
        = disp ++ extra
            ++ (pairs.filter fun p =>
                  !(disp.any fun d =>
                      decide (d.start ≤ p.1) && decide (p.2 ≤ d.stop))).map
                (mkInlineSpan content) := by
  intro pairs
  induction pairs with
  | nil => intro disp extra _ _ _; simp
  | cons p rest ih =>
    intro disp extra hchain hpos hextra
    have hchainrest : rest.Pairwise (fun p q => p.2 ≤ q.1) :=
      (List.pairwise_cons.mp hchain).2
    have hhead : ∀ q ∈ rest, p.2 ≤ q.1 := (List.pairwise_cons.mp hchain).1
    have hposp : p.1 < p.2 := hpos p (List.mem_cons_self _ _)
    have hanyextra :
        (extra.any fun d => decide (d.start ≤ p.1) && decide (p.2 ≤ d.stop))
          = false := by
      simp only [List.any_eq_false, Bool.and_eq_true, decide_eq_true_eq, not_and]
      intro x hx h1
      have := hextra x hx p (List.mem_cons_self _ _)
      omega
    rw [List.foldl_cons]
    show List.foldl (addInline content) (addInline content (disp ++ extra) p) rest = _
    rw [addInline, List.any_append, hanyextra, Bool.or_false]
    by_cases hc :
        (disp.any fun d => decide (d.start ≤ p.1) && decide (p.2 ≤ d.stop)) = true
    · rw [if_pos hc, List.filter_cons_of_neg (by simp [hc])]
      exact ih disp extra hchainrest
        (fun q hq => hpos q (List.mem_cons_of_mem _ hq))
        (fun x hx q hq => hextra x hx q (List.mem_cons_of_mem _ hq))
    · rw [if_neg hc, List.filter_cons_of_pos (by simp [hc]), List.append_assoc]
      rw [ih disp (extra ++ [mkInlineSpan content p]) hchainrest
        (fun q hq => hpos q (List.mem_cons_of_mem _ hq))
        (fun x hx q hq => by
          rcases List.mem_append.mp hx with hx | hx
          · exact hextra x hx q (List.mem_cons_of_mem _ hq)
          · rcases List.mem_singleton.mp hx with rfl
            exact hhead q hq)]
      simp [List.append_assoc]

theorem extract_eq_sort (content : Doc) :
    extract_equations_with_spans content
      = List.insertionSort leStart (dispSpans content ++ keptInlineSpans content) := by
  have h := foldl_addInline_spec content (inlinePairs content)
      ((displayPairs content).map (mkDisplaySpan content)) []
      (inlinePairs_chain content) (inlinePairs_mem content) (by simp)
  simp only [List.append_nil] at h
  show List.insertionSort leStart
      ((inlinePairs content).foldl (addInline content)
        ((displayPairs content).map (mkDisplaySpan content)))
    = List.insertionSort leStart (dispSpans content ++ keptInlineSpans content)
  rw [h]
  rfl

theorem dispSpans_chain (content : Doc) :
    (dispSpans content).Pairwise fun a b => a.stop ≤ b.start := by
  unfold dispSpans
  rw [List.pairwise_map]
  exact displayPairs_chain content

theorem keptInlineSpans_chain (content : Doc) :
    (keptInlineSpans content).Pairwise fun a b => a.stop ≤ b.start := by
  unfold keptInlineSpans
  rw [List.pairwise_map]
  exact ((inlinePairs_chain content).sublist (List.filter_sublist _)).imp
    fun h => h

theorem dispSpans_isDisplay (content : Doc) :
    ∀ a ∈ dispSpans content, a.isDisplay = true := by
  intro a ha
  rcases List.mem_map.mp ha with ⟨p, _, rfl⟩
  rfl

theorem keptInlineSpans_isDisplay (content : Doc) :
    ∀ a ∈ keptInlineSpans content, a.isDisplay = false := by
  intro a ha
  rcases List.mem_map.mp ha with ⟨p, _, rfl⟩
  rfl

theorem kindSep_symm : ∀ {a b : Span}, kindSep a b → kindSep b a :=
  fun h heq => (h heq.symm).symm

/-- **C1** (counterexample).  On the document `"$a$$b$$c$"` the Equation
Locator returns the inline span `(0,3)` and the display span `(2,7)`,
which share character position 2: the claimed pairwise non-overlap of
the returned spans fails when an inline candidate overlaps a display
span only partially. -/
theorem C1_counterexample_partial_overlap :
    extract_equations_with_spans "$a$$b$$c$".data
        = [⟨0, 3, "$a$".data, false⟩, ⟨2, 7, "$$b$$".data, true⟩,
           ⟨6, 9, "$c$".data, false⟩]
      ∧ ¬ spanDisjoint ⟨0, 3, "$a$".data, false⟩ ⟨2, 7, "$$b$$".data, true⟩ :=
  ⟨by decide, by decide⟩

/-- **C1** (amended): for every document text the spans returned by
`extract_equations_with_spans` are ordered by ascending start offset,
and two returned spans of the same kind (display/display or
inline/inline) never overlap; the full pairwise non-overlap of the
original claim fails for an inline candidate that only partially
overlaps a display span. -/
theorem C1_spans_sorted_sameKind_disjoint (content : Doc) :
    (extract_equations_with_spans content).Sorted leStart
      ∧ (extract_equations_with_spans content).Pairwise kindSep := by
  constructor
  · rw [extract_eq_sort]
    exact List.sorted_insertionSort leStart _
  · have hperm : List.Perm (dispSpans content ++ keptInlineSpans content)
        (extract_equations_with_spans content) := by
      rw [extract_eq_sort]
      exact (List.perm_insertionSort leStart _).symm
    refine hperm.pairwise ?_ (fun {x y} h => kindSep_symm h)
    refine List.pairwise_append.mpr ⟨?_, ?_, ?_⟩
    · exact (dispSpans_chain content).imp fun h => fun _ => Or.inl h
    · exact (keptInlineSpans_chain content).imp fun h => fun _ => Or.inl h
    · intro a ha b hb
      unfold kindSep
      intro heq
      rw [dispSpans_isDisplay content a ha,
        keptInlineSpans_isDisplay content b hb] at heq
      exact absurd heq (by simp)

/-- **C7**: an inline candidate whose character range lies fully inside a
collected display span is discarded — the corresponding inline span
never appears in the returned list — and on `"$$x $ y$ z$$"` the Locator
returns exactly the single display span covering the whole run. -/
theorem C7_contained_inline_discarded (content : Doc) (a b ds de : Nat)
    (_hmem : (a, b) ∈ inlinePairs content)
    (hd : (ds, de) ∈ displayPairs content)
    (hcont : ds ≤ a ∧ b ≤ de) :
    (Span.mk a b (sub content a b) false ∉ extract_equations_with_spans content)
      ∧ extract_equations_with_spans "$$x $ y$ z$$".data
          = [⟨0, 12, "$$x $ y$ z$$".data, true⟩] := by
  refine ⟨?_, by decide⟩
  intro hin
  rw [extract_eq_sort, List.mem_insertionSort] at hin
  rcases List.mem_append.mp hin with h | h
  · have := dispSpans_isDisplay content _ h
    simp at this
  · rcases List.mem_map.mp h with ⟨p, hp, hpe⟩
    have hp1 : p.1 = a := congrArg Span.start hpe
    have hp2 : p.2 = b := congrArg Span.stop hpe
    have hfil := (List.mem_filter.mp hp).2
    rw [Bool.not_eq_true', List.any_eq_false] at hfil
    have hdm : mkDisplaySpan content (ds, de) ∈ dispSpans content :=
      List.mem_map_of_mem _ hd
    have hcd := hfil _ hdm
    simp only [mkDisplaySpan, Bool.and_eq_true, decide_eq_true_eq, not_and,
      hp1, hp2] at hcd
    exact hcd hcont.1 hcont.2

/-- Witness for C7: on the example document the inner inline candidate
`(4, 8)` (the run matching "$ y$") is contained in the display span
`(0, 12)` and does not appear in the output. -/
theorem C7_contained_inline_discarded_witness :
    (Span.mk 4 8 (sub "$$x $ y$ z$$".data 4 8) false
        ∉ extract_equations_with_spans "$$x $ y$ z$$".data)
      ∧ extract_equations_with_spans "$$x $ y$ z$$".data
          = [⟨0, 12, "$$x $ y$ z$$".data, true⟩] :=
  C7_contained_inline_discarded "$$x $ y$ z$$".data 4 8 0 12
    (by decide) (by decide) (by decide)

/-- **C6**: on `"Start $$a+b$$ middle $c-d$ end."` the Locator returns
exactly the display span `(6,13)` and the inline span `(21,26)` in that
order, and in general a document whose display pass finds exactly one
span and whose inline pass leaves exactly one surviving non-overlapping
candidate yields exactly those two spans ordered by start offset, each
with the correct kind flag and with `raw_text` the exact original
substring including delimiters. -/
theorem C6_locator_two_spans (content : Doc) (ds de a b : Nat)
    (h1 : displayPairs content = [(ds, de)])
    (h2 : (inlinePairs content).filter
        (fun p => !(decide (ds ≤ p.1) && decide (p.2 ≤ de))) = [(a, b)])
    (_h3 : de ≤ a ∨ b ≤ ds) :
    extract_equations_with_spans content
        = (if ds ≤ a then
            [⟨ds, de, sub content ds de, true⟩, ⟨a, b, sub content a b, false⟩]
          else
            [⟨a, b, sub content a b, false⟩, ⟨ds, de, sub content ds de, true⟩])
      ∧ extract_equations_with_spans "Start $$a+b$$ middle $c-d$ end.".data
          = [⟨6, 13, "$$a+b$$".data, true⟩, ⟨21, 26, "$c-d$".data, false⟩] := by
  refine ⟨?_, by decide⟩
  rw [extract_eq_sort]
  unfold keptInlineSpans dispSpans
  rw [h1]
  have hfil : ((inlinePairs content).filter fun p =>
      !(([(ds, de)].map (mkDisplaySpan content)).any fun d =>
          decide (d.start ≤ p.1) && decide (p.2 ≤ d.stop))) = [(a, b)] := by
    simpa [mkDisplaySpan] using h2
  rw [hfil]
  by_cases hle : ds ≤ a
  · simp [List.insertionSort, List.orderedInsert, leStart, mkDisplaySpan,
      mkInlineSpan, hle]
  · simp [List.insertionSort, List.orderedInsert, leStart, mkDisplaySpan,
      mkInlineSpan, hle]

/-- Witness for C6 at the example document, with the display span
`(6,13)` and the surviving inline span `(21,26)`. -/
theorem C6_locator_two_spans_witness :
    extract_equations_with_spans "Start $$a+b$$ middle $c-d$ end.".data
        = (if 6 ≤ 21 then
            [⟨6, 13, sub "Start $$a+b$$ middle $c-d$ end.".data 6 13, true⟩,
             ⟨21, 26, sub "Start $$a+b$$ middle $c-d$ end.".data 21 26, false⟩]
          else
            [⟨21, 26, sub "Start $$a+b$$ middle $c-d$ end.".data 21 26, false⟩,
             ⟨6, 13, sub "Start $$a+b$$ middle $c-d$ end.".data 6 13, true⟩])
      ∧ extract_equations_with_spans "Start $$a+b$$ middle $c-d$ end.".data
          = [⟨6, 13, "$$a+b$$".data, true⟩, ⟨21, 26, "$c-d$".data, false⟩] :=
  C6_locator_two_spans "Start $$a+b$$ middle $c-d$ end.".data 6 13 21 26
    (by decide) (by decide) (by decide)

/-- **C3** (counterexample).  On `"$a\$b$"` — a run between two
non-escaped `$` whose content contains only the escaped dollar `\$` —
the Locator returns no span at all, in particular not the claimed
inline span `"$a\$b$"`. -/
theorem C3_counterexample_escaped_dollar_content :
    extract_equations_with_spans "$a\\$b$".data = []
      ∧ Span.mk 0 6 "$a\\$b$".data false
          ∉ extract_equations_with_spans "$a\\$b$".data :=
  ⟨by decide, by decide⟩

/-- **C3** (amended): the inline close scan succeeds exactly when the
first `$` at or after the scan position is non-escaped — so a run is
matched as inline exactly when its content contains no `$` at all,
escaped or not, and its closing `$` is non-escaped.  A candidate whose
content contains an escaped `\$` is not matched: on `"$a\$b$"` the
Locator returns no span. -/
theorem C3_inline_content_has_no_dollar (s : Doc) (fuel pos e : Nat)
    (hf : s.length ≤ pos + fuel) :
    (inlineClose s fuel pos = some e
      ↔ ∃ q, e = q + 1 ∧ pos ≤ q ∧ s[q]? = some '$' ∧ notEscaped s q = true
          ∧ ∀ k, pos ≤ k → k < q → s[k]? ≠ some '$')
    ∧ extract_equations_with_spans "$a\\$b$".data = [] := by
  refine ⟨?_, by decide⟩
  induction fuel generalizing pos with
  | zero =>
    simp only [inlineClose]
    constructor
    · intro h; exact absurd h (by simp)
    · rintro ⟨q, rfl, hq1, hq2, -, -⟩
      have hql : q < s.length := (List.getElem?_eq_some_iff.mp hq2).1
      omega
  | succ f ih =>
    simp only [inlineClose]
    cases hg : s[pos]? with
    | none =>
      have hlen : s.length ≤ pos := List.getElem?_eq_none_iff.mp hg
      constructor
      · intro h; exact absurd h (by simp)
      · rintro ⟨q, rfl, hq1, hq2, -, -⟩
        have hql : q < s.length := (List.getElem?_eq_some_iff.mp hq2).1
        omega
    | some c =>
      dsimp only
      by_cases hc : c = '$'
      · subst hc
        rw [if_pos rfl]
        by_cases hne : notEscaped s pos
        · rw [if_pos hne]
          constructor
          · intro h
            injection h with h
            exact ⟨pos, h.symm, Nat.le_refl _, hg, hne,
              fun k hk1 hk2 => absurd hk2 (by omega)⟩
          · rintro ⟨q, rfl, hq1, hq2, -, hq4⟩
            have hqp : q = pos := by
              by_contra hne2
              exact hq4 pos (Nat.le_refl _) (by omega) hg
            rw [hqp]
        · rw [if_neg hne]
          constructor
          · intro h; exact absurd h (by simp)
          · rintro ⟨q, rfl, hq1, hq2, hq3, hq4⟩
            rcases Nat.eq_or_lt_of_le hq1 with rfl | hlt
            · exact absurd hq3 hne
            · exact absurd hg (hq4 pos (Nat.le_refl _) hlt)
      · rw [if_neg hc, ih (pos + 1) (by omega)]
        constructor
        · rintro ⟨q, rfl, hq1, hq2, hq3, hq4⟩
          refine ⟨q, rfl, by omega, hq2, hq3, fun k hk1 hk2 => ?_⟩
          rcases Nat.eq_or_lt_of_le hk1 with rfl | hlt
          · rw [hg]
            intro heq
            injection heq with heq
            exact hc heq
          · exact hq4 k hlt hk2
        · rintro ⟨q, rfl, hq1, hq2, hq3, hq4⟩
          have hq1' : pos + 1 ≤ q := by
            rcases Nat.eq_or_lt_of_le hq1 with rfl | h
            · rw [hg] at hq2
              injection hq2 with h2
              exact absurd h2 hc
            · omega
          exact ⟨q, rfl, hq1', hq2, hq3, fun k hk1 hk2 => hq4 k (by omega) hk2⟩

/-- Witness for the amended C3 at `s = "$x$"`, `pos = 1`: the close scan
finds the non-escaped closing dollar at position 2. -/
theorem C3_inline_content_has_no_dollar_witness :
    (inlineClose "$x$".data 3 1 = some 3
      ↔ ∃ q, 3 = q + 1 ∧ 1 ≤ q ∧ "$x$".data[q]? = some '$'
          ∧ notEscaped "$x$".data q = true
          ∧ ∀ k, 1 ≤ k → k < q → "$x$".data[k]? ≠ some '$')
    ∧ extract_equations_with_spans "$a\\$b$".data = [] :=
  C3_inline_content_has_no_dollar "$x$".data 3 1 3 (by decide)

/-! ### `add_graphicx_package` -/

/-- **C2** (code slip): when text precedes `\documentclass`,
`add_graphicx_package` drops it instead of only inserting the
declaration — the returned text is built from `match.group(1)` onward,
omitting `content[:match.start(1)]`.  On
`"X\documentclass{a}\begin{document}body"` the leading `"X"` is lost. -/
theorem C2_text_before_documentclass_dropped :
    add_graphicx_package "X\\documentclass{a}\\begin{document}body".data
        = "\\documentclass{a}\n\\usepackage{graphicx}\\begin{document}body".data
      ∧ add_graphicx_package "X\\documentclass{a}\\begin{document}body".data
          ≠ "X\\documentclass{a}\n\\usepackage{graphicx}\\begin{document}body".data :=
  ⟨by decide, by decide⟩

theorem hasInfix_append (pat : Doc) :
    ∀ A B : Doc, hasInfix (A ++ (pat ++ B)) pat = true := by
  intro A
  induction A with
  | nil =>
    intro B
    simp only [List.nil_append]
    unfold hasInfix
    rw [if_pos (List.isPrefixOf_iff_prefix.mpr (List.prefix_append pat B))]
  | cons c A' ih =>
    intro B
    simp only [List.cons_append]
    unfold hasInfix
    split
    · rfl
    · show hasInfix (A' ++ (pat ++ B)) pat = true
      exact ih B

theorem add_graphicx_of_hasInfix (content : Doc)
    (h : hasInfix content pkgGraphicx = true) :
    add_graphicx_package content = content := by
  unfold add_graphicx_package
  rw [if_pos h]

theorem add_graphicx_contains (content : Doc) :
    hasInfix (add_graphicx_package content) pkgGraphicx = true := by
  unfold add_graphicx_package
  split
  next h => exact h
  next h =>
    split
    next i j k heq =>
      have hap := hasInfix_append pkgGraphicx (sub content i k ++ ['\n'])
        (sub content k (k + 16) ++ content.drop (k + 16))
      simpa [List.append_assoc] using hap
    next heq =>
      have hap := hasInfix_append pkgGraphicx [] ('\n' :: content)
      simpa using hap

/-- **C8**: `add_graphicx_package` is idempotent — the result of one
application always contains the `\usepackage{graphicx}` declaration as a
substring, so a second application returns its input unchanged. -/
theorem C8_add_graphicx_idempotent (content : Doc) :
    add_graphicx_package (add_graphicx_package content)
        = add_graphicx_package content
      ∧ hasInfix (add_graphicx_package content) pkgGraphicx = true :=
  ⟨add_graphicx_of_hasInfix _ (add_graphicx_contains content),
    add_graphicx_contains content⟩

/-! ### File-mode error flow, renderer lifecycle, manual-mode validation -/

/-- **C4** (counterexample): the extraction operation does not fail on a
missing file — `FileNotFoundError` is caught and the empty list is
returned, which is exactly the value returned for the readable document
`"hello"` with zero equations; the caller cannot distinguish the two
outcomes from the returned sequence. -/
theorem C4_counterexample_notfound_conflated :
    (extract_from_file none).1 = (extract_from_file (some "hello".data)).1
      ∧ (fileModeReport none).1 = (fileModeReport (some "hello".data)).1 :=
  ⟨by decide, by decide⟩

/-- **C4** (amended): on a missing file the extraction operation catches
the NotFound error, prints its own error line, and returns the empty
sequence; for a readable document with zero equations the caller-facing
tool takes the same branch and prints the same shared
"no equations found or file could not be read" line.  The two outcomes
are not distinguishable from the returned sequence; only the extraction
function's own printed line differs. -/
theorem C4_notfound_caught_and_conflated (content : Doc)
    (h : extract_equations_with_spans content = []) :
    extract_from_file none = ([], [ConsoleMsg.fileNotFound])
      ∧ (fileModeReport (some content)).1 = (fileModeReport none).1
      ∧ (fileModeReport none).2
          = [ConsoleMsg.fileNotFound, ConsoleMsg.noEquationsFound]
      ∧ (fileModeReport (some content)).2 = [ConsoleMsg.noEquationsFound] := by
  refine ⟨rfl, ?_, rfl, ?_⟩
  · simp [fileModeReport, extract_from_file, h]
  · simp [fileModeReport, extract_from_file, h]

/-- Witness for the amended C4 at the equation-free document `"hello"`. -/
theorem C4_notfound_caught_and_conflated_witness :
    extract_from_file none = ([], [ConsoleMsg.fileNotFound])
      ∧ (fileModeReport (some "hello".data)).1 = (fileModeReport none).1
      ∧ (fileModeReport none).2
          = [ConsoleMsg.fileNotFound, ConsoleMsg.noEquationsFound]
      ∧ (fileModeReport (some "hello".data)).2 = [ConsoleMsg.noEquationsFound] :=
  C4_notfound_caught_and_conflated "hello".data (by decide)

/-- **C9** (code slip): `latex_to_image` releases its figure on the
success path, restoring the open-figure state, but when the body raises
the `except` clause re-raises without reaching `plt.close(fig)`: after a
failing render starting from zero open figures, one figure stays open. -/
theorem C9_figure_released_only_on_success :
    (∀ n, latex_to_image false n = (n, true))
      ∧ latex_to_image true 0 = (1, false) := by
  constructor
  · intro n; simp [latex_to_image]
  · rfl

/-- **C10**: manual-mode validation accepts an input exactly when its
first three characters are `r'$` (the separate `r'$$` disjunct is
subsumed by the `r'$` prefix test), so the string `r'$x` — not a
well-formed raw-string literal, missing its closing quote — passes
validation and is rejected only at the literal-interpretation step as a
format error, with no image produced. -/
theorem C10_validation_is_prefix_test (input : Doc) :
    (manualValidate input = "r\x27$".data.isPrefixOf input)
      ∧ manualValidate "r\x27$x".data = true
      ∧ parseRawLiteral "r\x27$x".data = none
      ∧ manualMode "r\x27$x".data = ManualOutcome.syntaxError := by
  refine ⟨?_, by decide, by decide, by decide⟩
  unfold manualValidate
  by_cases h3 : ("r\x27$".data.isPrefixOf input) = true
  · rw [h3, Bool.true_or]
  · have h3f : ("r\x27$".data.isPrefixOf input) = false :=
      Bool.eq_false_iff.mpr h3
    have h4f : ("r\x27$$".data.isPrefixOf input) = false := by
      rw [Bool.eq_false_iff]
      intro h4
      exact h3 (List.isPrefixOf_iff_prefix.mpr
        ((by decide : "r\x27$".data <+: "r\x27$$".data).trans
          (List.isPrefixOf_iff_prefix.mp h4)))
    rw [h3f, h4f, Bool.or_self]

/-! ### Equivalence of the descending splice and the functional build -/

theorem rangesDisjoint_symm {s1 e1 s2 e2 : Nat}
    (h : rangesDisjoint s1 e1 s2 e2) : rangesDisjoint s2 e2 s1 e1 := by
  unfold rangesDisjoint at h ⊢
  omega

theorem sub_setSlice_left (content : Doc) (s e : Nat) (r : Doc) (p a : Nat)
    (hpa : p ≤ a) (has : a ≤ s) (hsn : s ≤ content.length) :
    sub (setSlice content s e r) p a = sub content p a := by
  unfold sub setSlice
  rw [List.append_assoc, List.drop_append_eq_append_drop,
    List.take_append_eq_append_take, List.drop_take, List.take_take]
  simp only [List.length_take, List.length_drop]
  have h2 : a - p - min (s - p) (content.length - p) = 0 := by omega
  have h3 : min (a - p) (s - p) = a - p := by omega
  rw [h2, h3]
  simp

theorem ascOk_append_le (n s e : Nat) (r : Doc) :
    ∀ (A : List Rep) (p : Nat),
      AscOk n p (A ++ [(s, e, r)]) → p ≤ s ∧ s ≤ e ∧ e ≤ n := by
  intro A
  induction A with
  | nil => intro p h; simpa only [List.nil_append, AscOk] using h
  | cons u A' ih =>
    intro p h
    obtain ⟨a, b, q⟩ := u
    simp only [List.cons_append, AscOk] at h
    obtain ⟨hpa, hab, h'⟩ := h
    have hres := ih b h'
    exact ⟨by omega, hres.2.1, hres.2.2⟩

theorem buildAsc_snoc (content : Doc) (s e : Nat) (r : Doc) :
    ∀ (A : List Rep) (p : Nat), AscOk content.length p (A ++ [(s, e, r)]) →
      buildAsc content p (A ++ [(s, e, r)])
        = buildAsc (setSlice content s e r) p A := by
  intro A
  induction A with
  | nil =>
    intro p h
    simp only [List.nil_append, AscOk] at h
    obtain ⟨h1, h2, h3⟩ := h
    simp only [buildAsc, setSlice]
    rw [List.drop_append_eq_append_drop, List.drop_append_eq_append_drop,
      List.drop_take]
    simp only [List.length_take, List.length_append]
    have h4 : p - min s content.length = 0 := by omega
    have h5 : p - (min s content.length + r.length) = 0 := by omega
    rw [h4, h5]
    simp only [List.drop_zero]
    unfold sub
    rfl
  | cons u A' ih =>
    intro p h
    obtain ⟨a, b, q⟩ := u
    simp only [List.cons_append, AscOk, List.append_eq] at h
    obtain ⟨hpa, hab, hrest⟩ := h
    have hlast := ascOk_append_le content.length s e r A' b hrest
    simp only [buildAsc, List.append_eq]
    rw [ih b hrest,
      sub_setSlice_left content s e r p a hpa (by omega) (by omega)]

theorem setSlice_length_ge (content : Doc) (s e : Nat) (r : Doc)
    (hsn : s ≤ content.length) : s ≤ (setSlice content s e r).length := by
  simp only [setSlice, List.length_append, List.length_take, List.length_drop]
  omega

theorem ascOk_append_single (n s e : Nat) (r : Doc) :
    ∀ (A : List Rep) (p : Nat), AscOk n p A → (∀ u ∈ A, u.2.1 ≤ s) →
      p ≤ s → s ≤ e → e ≤ n → AscOk n p (A ++ [(s, e, r)]) := by
  intro A
  induction A with
  | nil =>
    intro p _ _ hps hse hen
    simp only [List.nil_append, AscOk]
    exact ⟨hps, hse, hen⟩
  | cons u A' ih =>
    intro p h hmem hps hse hen
    obtain ⟨a, b, q⟩ := u
    simp only [List.cons_append, AscOk] at h ⊢
    obtain ⟨hpa, hab, h'⟩ := h
    refine ⟨hpa, hab, ih b h'
      (fun v hv => hmem v (List.mem_cons_of_mem _ hv)) ?_ hse hen⟩
    exact hmem (a, b, q) (List.mem_cons_self _ _)

theorem ascOk_reverse_of_desc (n : Nat) :
    ∀ D : List Rep,
      D.Pairwise (fun a b => b.2.1 ≤ a.1) →
      (∀ t ∈ D, t.1 ≤ t.2.1 ∧ t.2.1 ≤ n) →
      AscOk n 0 D.reverse := by
  intro D
  induction D with
  | nil =>
    intro _ _
    simp only [List.reverse_nil, AscOk]
    exact Nat.zero_le n
  | cons t D' ih =>
    intro hpw hbnd
    obtain ⟨s, e, r⟩ := t
    rw [List.reverse_cons]
    have hb := hbnd (s, e, r) (List.mem_cons_self _ _)
    refine ascOk_append_single n s e r D'.reverse 0
      (ih (List.pairwise_cons.mp hpw).2
        (fun u hu => hbnd u (List.mem_cons_of_mem _ hu)))
      ?_ (Nat.zero_le s) hb.1 hb.2
    intro u hu
    exact (List.pairwise_cons.mp hpw).1 u (List.mem_reverse.mp hu)

theorem foldl_setSlice_eq_buildAsc :
    ∀ (D : List Rep) (content : Doc),
      D.Pairwise (fun a b => b.2.1 ≤ a.1) →
      (∀ t ∈ D, t.1 ≤ t.2.1 ∧ t.2.1 ≤ content.length) →
      D.foldl (fun acc t => setSlice acc t.1 t.2.1 t.2.2) content
        = buildAsc content 0 D.reverse := by
  intro D
  induction D with
  | nil => intro content _ _; simp [buildAsc]
  | cons t D' ih =>
    intro content hpw hbnd
    obtain ⟨s, e, r⟩ := t
    have hb := hbnd (s, e, r) (List.mem_cons_self _ _)
    rw [List.foldl_cons]
    have hboundsD' : ∀ u ∈ D',
        u.1 ≤ u.2.1 ∧ u.2.1 ≤ (setSlice content s e r).length := by
      intro u hu
      have h1 := hbnd u (List.mem_cons_of_mem _ hu)
      have h2 := (List.pairwise_cons.mp hpw).1 u hu
      have h3 := setSlice_length_ge content s e r (by omega)
      exact ⟨h1.1, by omega⟩
    rw [ih (setSlice content s e r) (List.pairwise_cons.mp hpw).2 hboundsD']
    rw [List.reverse_cons]
    have hasc : AscOk content.length 0 (D'.reverse ++ [(s, e, r)]) := by
      have hr := ascOk_reverse_of_desc content.length ((s, e, r) :: D') hpw hbnd
      rwa [List.reverse_cons] at hr
    rw [buildAsc_snoc content s e r D'.reverse 0 hasc]

theorem pairwise_ne_start (L : List Rep)
    (hb : ∀ t ∈ L, t.1 < t.2.1)
    (hd : L.Pairwise fun a b => rangesDisjoint a.1 a.2.1 b.1 b.2.1) :
    L.Pairwise fun a b => a.1 ≠ b.1 := by
  refine hd.imp_of_mem ?_
  intro a b ha hb' hab
  have h1 := hb a ha
  have h2 := hb b hb'
  simp only [rangesDisjoint] at hab
  omega

/-- **C5** (amended): for replacement triples with in-bounds, *non-empty*
(start < end), pairwise non-overlapping ranges, applying the
replacements by mutating the character list in descending start order
produces exactly the text built functionally in a single left-to-right
pass over the ascending-sorted triples.  (With empty ranges permitted
the two differ, see the counterexample.) -/
theorem C5_descending_splice_eq_functional (content : Doc) (reps : List Rep)
    (hbnd : ∀ t ∈ reps, t.1 < t.2.1 ∧ t.2.1 ≤ content.length)
    (hdisj : reps.Pairwise fun a b => rangesDisjoint a.1 a.2.1 b.1 b.2.1) :
    spliceDesc content reps = spliceAsc content reps := by
  have hperm : List.Perm (List.insertionSort geStartR reps) reps :=
    List.perm_insertionSort geStartR reps
  have hsorted : (List.insertionSort geStartR reps).Pairwise geStartR :=
    List.sorted_insertionSort geStartR reps
  have hbndD : ∀ t ∈ List.insertionSort geStartR reps,
      t.1 < t.2.1 ∧ t.2.1 ≤ content.length :=
    fun t ht => hbnd t (hperm.mem_iff.mp ht)
  have hdisjD : (List.insertionSort geStartR reps).Pairwise
      (fun a b => rangesDisjoint a.1 a.2.1 b.1 b.2.1) :=
    hperm.symm.pairwise hdisj (fun {a b} h => rangesDisjoint_symm h)
  have hdesc : (List.insertionSort geStartR reps).Pairwise
      (fun a b => b.2.1 ≤ a.1) := by
    refine (hsorted.and hdisjD).imp_of_mem ?_
    intro a b ha hb hab
    have h1 := (hbndD a ha).1
    have h2 := (hbndD b hb).1
    obtain ⟨hge, hdj⟩ := hab
    simp only [geStartR] at hge
    simp only [rangesDisjoint] at hdj
    omega
  have hmain := foldl_setSlice_eq_buildAsc (List.insertionSort geStartR reps)
    content hdesc (fun t ht => ⟨Nat.le_of_lt (hbndD t ht).1, (hbndD t ht).2⟩)
  have hrev : (List.insertionSort geStartR reps).reverse
      = List.insertionSort leStartR reps := by
    have hpermA : List.Perm (List.insertionSort leStartR reps) reps :=
      List.perm_insertionSort leStartR reps
    apply List.eq_of_perm_of_sorted (r := ltStartR)
    · exact ((List.reverse_perm _).trans hperm).trans hpermA.symm
    · show ((List.insertionSort geStartR reps).reverse).Pairwise ltStartR
      refine List.pairwise_reverse.mpr ?_
      have hne := pairwise_ne_start _ (fun t ht => (hbndD t ht).1) hdisjD
      refine (hsorted.and hne).imp ?_
      intro a b hab
      obtain ⟨hge, hneq⟩ := hab
      simp only [geStartR] at hge
      exact Nat.lt_of_le_of_ne hge (Ne.symm hneq)
    · show (List.insertionSort leStartR reps).Pairwise ltStartR
      have hsortedA : (List.insertionSort leStartR reps).Pairwise leStartR :=
        List.sorted_insertionSort leStartR reps
      have hdisjA : (List.insertionSort leStartR reps).Pairwise
          (fun a b => rangesDisjoint a.1 a.2.1 b.1 b.2.1) :=
        hpermA.symm.pairwise hdisj (fun {a b} h => rangesDisjoint_symm h)
      have hne := pairwise_ne_start _
        (fun t ht => (hbnd t (hpermA.mem_iff.mp ht)).1) hdisjA
      refine (hsortedA.and hne).imp ?_
      intro a b hab
      obtain ⟨hle, hneq⟩ := hab
      exact Nat.lt_of_le_of_ne hle hneq
  unfold spliceDesc spliceAsc
  rw [hmain, hrev]

/-- Witness for the amended C5 on `"abcdef"` with the out-of-order
non-empty disjoint replacements `(4,5,"Q")` and `(1,2,"P")`. -/
theorem C5_descending_splice_eq_functional_witness :
    spliceDesc "abcdef".data [(4, 5, "Q".data), (1, 2, "P".data)]
      = spliceAsc "abcdef".data [(4, 5, "Q".data), (1, 2, "P".data)] :=
  C5_descending_splice_eq_functional "abcdef".data _
    (by decide) (by decide)

/-- **C5** (counterexample): two empty replacement ranges at the same
offset are in-bounds and share no character position (they contain no
position at all), yet the descending mutation applies them in the
opposite order from the left-to-right functional build: on `"ab"` with
`[(1,1,"X"), (1,1,"Y")]` the descending splice yields `"aYXb"` while
the functional build yields `"aXYb"`. -/
theorem C5_counterexample_same_start_empty_ranges :
    (([(1, 1, "X".data), (1, 1, "Y".data)] : List Rep).all fun t =>
        decide (t.1 ≤ t.2.1) && decide (t.2.1 ≤ "ab".data.length)) = true
      ∧ ([(1, 1, "X".data), (1, 1, "Y".data)] : List Rep).Pairwise
          (fun a b => rangesDisjoint a.1 a.2.1 b.1 b.2.1)
      ∧ spliceDesc "ab".data [(1, 1, "X".data), (1, 1, "Y".data)]
          = "aYXb".data
      ∧ spliceAsc "ab".data [(1, 1, "X".data), (1, 1, "Y".data)]
          = "aXYb".data
      ∧ spliceDesc "ab".data [(1, 1, "X".data), (1, 1, "Y".data)]
          ≠ spliceAsc "ab".data [(1, 1, "X".data), (1, 1, "Y".data)] :=
  ⟨by decide, by decide, by decide, by decide, by decide⟩

end LatexConv
